import Mathlib

/-!
Verification of the merge/derivation core of `vs_merge.py` (vessel schedule
report merge). The program joins two tabular datasets on a composite key
built by concatenating key-column string values with `_`, projects selected
columns, deduplicates by the key, and optionally derives `Delay Days` /
`Delay Status` from two time-of-day columns.

The embedding models pandas dataframes as `Table` (a column-name list plus
rows of cells in column order). Cells are a tagged union; a missing value
(pandas `NaN`) is `Cell.null`. Pure per-cell computations (`parseTime`,
`calculate_delay_days`, `calculate_delay_status`) mirror
`pd.to_datetime(..., format='%H:%M:%S', errors='coerce')`, the
seconds-difference / 86400 ceiling, and the threshold classification. The
excluded I/O boundary (Excel reading/writing, temp files, Streamlit UI) is
not modelled; the merge functions return the produced table (and, since the
source assigns `old_file['UniqueKey'] = ...` in place, the post-call states
of both input tables).
-/

/-- Cell values of a loaded table: a string, a number, or a missing value
(pandas `NaN`). The numeric rendering of `num` under `astype(str)` is
abstracted to `toString`; no claim depends on numeric formatting. -/
inductive Cell where
  | str : String → Cell
  | num : Int → Cell
  | null : Cell
deriving DecidableEq

/-- String representation of a cell under pandas `astype(str)`: strings pass
through and a missing value (`NaN`) renders as the literal text `nan`. -/
def cellToString : Cell → String
  | Cell.str s => s
  | Cell.num n => toString n
  | Cell.null => "nan"

/-- Split a character list at every `:`, keeping empty segments, as the
literal `:` separators of the `%H:%M:%S` format do. -/
def splitCols : List Char → List (List Char)
  | [] => [[]]
  | c :: cs =>
    if c = ':' then [] :: splitCols cs
    else
      match splitCols cs with
      | [] => [[c]]
      | f :: rest => (c :: f) :: rest

/-- Reassemble colon-separated parts; the left inverse of `splitCols`. -/
def joinColon : List (List Char) → List Char
  | [] => []
  | [p] => p
  | p :: q :: rest => p ++ ':' :: joinColon (q :: rest)

/-- Numeric value of a digit list, most significant first. -/
def digitsVal (f : List Char) : Nat :=
  f.foldl (fun a c => a * 10 + (c.toNat - 48)) 0

/-- Parse one strptime field (`%H`, `%M` or `%S`): one or two digits whose
value is at most `mx`. This matches the CPython/pandas `strptime` regex
alternatives (for example `%H` is `2[0-3]|[0-1]\d|\d`): zero padding is
optional. -/
def parseField (f : List Char) (mx : Nat) : Option Nat :=
  if f ≠ [] ∧ f.length ≤ 2 ∧ f.all (fun c => c.isDigit) then
    if digitsVal f ≤ mx then some (digitsVal f) else none
  else none

/-- Seconds since midnight of a time string, or `none`. Models one element
of `pd.to_datetime(col, format='%H:%M:%S', errors='coerce')` (source lines
37-38): pandas parses with the strptime machinery, so each field is one or
two digits within range (hours up to 23, minutes and seconds up to 59), the
separators are literal colons, and the whole string must be consumed; any
other value coerces to `NaT`, modelled as `none`. -/
def parseTime (s : String) : Option Nat :=
  match splitCols s.data with
  | [h, m, sec] =>
    match parseField h 23, parseField m 59, parseField sec 59 with
    | some hv, some mv, some sv => some (hv * 3600 + mv * 60 + sv)
    | _, _, _ => none
  | _ => none

/-- Time parse of a cell: only string cells can parse; a missing value or a
numeric cell coerces to `NaT` (`none`). -/
def parseTimeCell : Cell → Option Nat
  | Cell.str s => parseTime s
  | _ => none

/-- Modelled from the spec's words, for comparison with the parser the
source actually uses: a string strictly in 24-hour `HH:MM:SS` format, i.e.
exactly two digits per field with literal colon separators, hours at most
23, minutes and seconds at most 59. -/
def specStrictHHMMSS (s : String) : Bool :=
  match s.data with
  | [h1, h2, c1, m1, m2, c2, s1, s2] =>
    decide (c1 = ':') && decide (c2 = ':')
      && h1.isDigit && h2.isDigit && m1.isDigit && m2.isDigit
      && s1.isDigit && s2.isDigit
      && decide (digitsVal [h1, h2] ≤ 23)
      && decide (digitsVal [m1, m2] ≤ 59)
      && decide (digitsVal [s1, s2] ≤ 59)
  | _ => false

/-- Exact integer value of `np.ceil(d / n)` for an integer `d` and positive
integer `n`, written with floor division: `⌈d/n⌉ = -⌊-d/n⌋`. -/
def ceilOfDiv (d n : Int) : Int :=
  -((-d).fdiv n)

/-- Per-row delay days (source lines 34-45, applied elementwise over the two
columns): parse both times; if either coerces to `NaT` the difference and
hence the result is `NaN` (`none`); otherwise take the difference in seconds,
divide by 86400 and round up (`np.ceil`). For integer second counts the
float computation of the source is exact at the ceiling, so the result is
the exact ceiling of the rational quotient. -/
def calculate_delay_days (etb prof : Cell) : Option Int :=
  match parseTimeCell etb, parseTimeCell prof with
  | some a, some b => some (ceilOfDiv ((a : Int) - (b : Int)) 86400)
  | _, _ => none

/-- Delay status classification (source lines 47-56): `NaN` stays `NaN`;
delay days in `[-14, -1]` is `Advance`; in `[1, 14]` is `Delay`; anything
else (including 0 and magnitudes beyond 14) is `NaN`. -/
def calculate_delay_status (d : Option Int) : Option String :=
  match d with
  | none => none
  | some v =>
    if -14 ≤ v ∧ v ≤ -1 then some "Advance"
    else if 1 ≤ v ∧ v ≤ 14 then some "Delay"
    else none

/-- A loaded dataframe: ordered column names and rows, each row holding its
cells in column order. -/
structure Table where
  cols : List String
  rows : List (List Cell)
deriving DecidableEq

/-- A table is well formed when every row has one cell per column. The Excel
reader always produces well-formed tables. -/
def Table.WF (t : Table) : Prop :=
  ∀ r ∈ t.rows, r.length = t.cols.length

/-- Index of the first column with the given label, as pandas label lookup
resolves a column name. -/
def colIndex (c : String) : List String → Option Nat
  | [] => none
  | c' :: rest => if c' = c then some 0 else (colIndex c rest).map (· + 1)

/-- Cell of a row under a column label. The merge pipeline only looks up
labels previously validated to be present (the Streamlit layer checks
membership up front), so the `none` fallback of a missing label is
arbitrary and never reached on validated inputs. -/
def getCell (cols : List String) (row : List Cell) (c : String) : Cell :=
  match colIndex c cols with
  | some j => row.getD j Cell.null
  | none => Cell.null

/-- Join string parts with the `_` separator, as `'_'.join` does. -/
def joinUnderscore : List String → String
  | [] => ""
  | [s] => s
  | s :: rest => s ++ "_" ++ joinUnderscore rest

/-- Composite key of one row (source lines 12-13 and 61-62):
`astype(str)` each key-column value and join with `_`. -/
def rowUniqueKey (cols keys : List String) (row : List Cell) : String :=
  joinUnderscore (keys.map (fun k => cellToString (getCell cols row k)))

/-- In-place assignment `df['UniqueKey'] = df[keys].astype(str).agg('_'.join,
axis=1)`: if a `UniqueKey` column exists its cells are overwritten, else the
column is appended at the end. The key of each row is computed from the
row's state before the assignment. -/
def addUniqueKey (t : Table) (keys : List String) : Table :=
  match colIndex "UniqueKey" t.cols with
  | some i =>
    { cols := t.cols
      rows := t.rows.map (fun r => r.set i (Cell.str (rowUniqueKey t.cols keys r))) }
  | none =>
    { cols := t.cols ++ ["UniqueKey"]
      rows := t.rows.map (fun r => r ++ [Cell.str (rowUniqueKey t.cols keys r)]) }

/-- Column projection `df[sel]` (source lines 16-17): keep the listed
columns in the listed order, row order unchanged. -/
def project (t : Table) (sel : List String) : Table :=
  { cols := sel
    rows := t.rows.map (fun r => sel.map (getCell t.cols r)) }

/-- Key cell of a row of table `t`: the value under the `UniqueKey` label. -/
def ukeyCell (cols : List String) (row : List Cell) : Cell :=
  getCell cols row "UniqueKey"

/-- Column labels of `pd.merge(left, right, on='UniqueKey', how='inner')`
when the left frame has columns `UniqueKey :: oc` and the right frame
`UniqueKey :: nc`: the key column once, then the left output columns, then
the right output columns, where a label occurring on both sides (other than
the key) is disambiguated with the default suffixes `_x` and `_y`. The model
covers frames with unique labels per side; listing `UniqueKey` itself among
the output columns would duplicate a label, which pandas rejects. -/
def mergedCols (oc nc : List String) : List String :=
  "UniqueKey" :: (oc.map (fun c => if c ∈ nc then c ++ "_x" else c))
    ++ (nc.map (fun c => if c ∈ oc then c ++ "_y" else c))

/-- Row of a right frame with its `UniqueKey` column removed, for pasting
onto a matching left row. -/
def dropUKCol (cols : List String) (row : List Cell) : List Cell :=
  match colIndex "UniqueKey" cols with
  | some i => row.eraseIdx i
  | none => row

/-- Rows of `pd.merge(L, R, on='UniqueKey', how='inner')` (source lines 20
and 69): one combined row per matching (left row, right row) pair, in the
order the left rows are encountered, ties on the right in right-row order;
the combined row is the left row followed by the right row minus its key
column. -/
def joinedRows (L R : Table) : List (List Cell) :=
  L.rows.flatMap (fun lr =>
    ((R.rows.filter (fun rr => ukeyCell R.cols rr = ukeyCell L.cols lr)).map
      (fun rr => lr ++ dropUKCol R.cols rr)))

/-- Inner merge of the two projected frames; `oc`/`nc` are the caller's
output column lists, needed to name the merged columns. -/
def mergeProjected (L R : Table) (oc nc : List String) : Table :=
  { cols := mergedCols oc nc
    rows := joinedRows L R }

/-- First-occurrence deduplication by key, parameterised over the key
function: a row is kept exactly when its key has not been seen earlier. -/
def dedupFirstByAux {α β : Type} [DecidableEq β] (f : α → β) (seen : List β) : List α → List α
  | [] => []
  | r :: rs =>
    if f r ∈ seen then dedupFirstByAux f seen rs
    else r :: dedupFirstByAux f (f r :: seen) rs

/-- Deduplication keeping the first row per key, as
`drop_duplicates(subset='UniqueKey')` (keep='first' default) does. -/
def dedupFirstBy {α β : Type} [DecidableEq β] (f : α → β) (l : List α) : List α :=
  dedupFirstByAux f [] l

/-- Table-level `drop_duplicates(subset='UniqueKey')` (source lines 23
and 72). -/
def dedupUK (t : Table) : Table :=
  { cols := t.cols
    rows := dedupFirstBy (fun r => ukeyCell t.cols r) t.rows }

/-- The basic merge (source lines 9-32). The source assigns the `UniqueKey`
column into both input dataframes in place, so the function value carries
the post-call states of the two inputs alongside the merged table; the
trailing Excel temp-file write is excluded I/O and the merged table stands
for the written output. -/
def extract_and_merge_columns_basic (old_file new_file : Table)
    (old_keys new_keys old_cols new_cols : List String) :
    Table × Table × Table :=
  let old' := addUniqueKey old_file old_keys
  let new' := addUniqueKey new_file new_keys
  let old_data := project old' ("UniqueKey" :: old_cols)
  let new_data := project new' ("UniqueKey" :: new_cols)
  let merged := dedupUK (mergeProjected old_data new_data old_cols new_cols)
  (old', new', merged)

/-- Cell written for a Delay Days value: the number, or `NaN` when null. -/
def delayDaysToCell : Option Int → Cell
  | some v => Cell.num v
  | none => Cell.null

/-- Cell written for a Delay Status value: the label, or `NaN` when null. -/
def delayStatusToCell : Option String → Cell
  | some s => Cell.str s
  | none => Cell.null

/-- Appending the `Delay Days` and `Delay Status` columns (source lines
74-79). Selecting `merged_data['ETB / ATB']` or `merged_data['Proforma
Berth']` raises a KeyError when that column is absent from the merged
frame, so the augmentation is fallible: `none` models the raised error. -/
def addDelayColumns (t : Table) : Option Table :=
  if "ETB / ATB" ∈ t.cols ∧ "Proforma Berth" ∈ t.cols then
    some
      { cols := t.cols ++ ["Delay Days", "Delay Status"]
        rows := t.rows.map (fun r =>
          let dd := calculate_delay_days (getCell t.cols r "ETB / ATB")
            (getCell t.cols r "Proforma Berth")
          r ++ [delayDaysToCell dd, delayStatusToCell (calculate_delay_status dd)]) }
  else none

/-- The merge with delay columns (source lines 58-88): the same pipeline as
the basic merge, then the delay augmentation, which fails when the merged
frame lacks `ETB / ATB` or `Proforma Berth`. -/
def extract_and_merge_columns_with_delay (old_file new_file : Table)
    (old_keys new_keys old_cols new_cols : List String) :
    Table × Table × Option Table :=
  let b := extract_and_merge_columns_basic old_file new_file old_keys new_keys old_cols new_cols
  (b.1, b.2.1, addDelayColumns b.2.2)

/-- Failure cases surfaced by the application (source lines 142-147,
158-159, 177-182, 193-194): a key or listed output column missing from
Excel A or B is reported eagerly, and a KeyError from the delay-column
access is caught and reported as a generic error. -/
inductive MergeError where
  | missingInA
  | missingInB
  | missingDelayColumns
deriving DecidableEq

/-- Observable milestones of one merge call, in the order the source
performs them, used to state when an error fires relative to the join. -/
inductive MergeEvent where
  | builtKeys
  | projectedCols
  | joined
  | deduped
  | delayColumnsAdded
  | wroteOutput
deriving DecidableEq

/-- Schema precondition checked by the application before calling a merge
function: every key and listed output column is present in the table. -/
def schemaOk (t : Table) (keys cols : List String) : Bool :=
  keys.all (fun k => decide (k ∈ t.cols)) && cols.all (fun c => decide (c ∈ t.cols))

/-- The application's basic-merge button (source lines 129-161): validate
the schema of both files eagerly — reporting an error and doing no merge
work when a column is missing — then run the basic merge and write the
output. The event list records which pipeline milestones were reached. -/
def mainMergeBasic (old_file new_file : Table)
    (old_keys new_keys old_cols new_cols : List String) :
    List MergeEvent × Except MergeError Table :=
  if schemaOk old_file old_keys old_cols = false then ([], Except.error MergeError.missingInA)
  else if schemaOk new_file new_keys new_cols = false then ([], Except.error MergeError.missingInB)
  else
    let b := extract_and_merge_columns_basic old_file new_file old_keys new_keys old_cols new_cols
    ([MergeEvent.builtKeys, MergeEvent.projectedCols, MergeEvent.joined,
      MergeEvent.deduped, MergeEvent.wroteOutput], Except.ok b.2.2)

/-- The application's merge-with-delay button (source lines 164-196): the
same eager schema validation, then the merge pipeline; the `ETB / ATB` /
`Proforma Berth` lookup happens only after the join and deduplication, so
when those columns are missing from the merged frame the failure occurs
with the join already performed — but still before any output is written. -/
def mainMergeWithDelay (old_file new_file : Table)
    (old_keys new_keys old_cols new_cols : List String) :
    List MergeEvent × Except MergeError Table :=
  if schemaOk old_file old_keys old_cols = false then ([], Except.error MergeError.missingInA)
  else if schemaOk new_file new_keys new_cols = false then ([], Except.error MergeError.missingInB)
  else
    let w := extract_and_merge_columns_with_delay old_file new_file old_keys new_keys old_cols new_cols
    match w.2.2 with
    | none =>
      ([MergeEvent.builtKeys, MergeEvent.projectedCols, MergeEvent.joined,
        MergeEvent.deduped], Except.error MergeError.missingDelayColumns)
    | some t =>
      ([MergeEvent.builtKeys, MergeEvent.projectedCols, MergeEvent.joined,
        MergeEvent.deduped, MergeEvent.delayColumnsAdded, MergeEvent.wroteOutput],
        Except.ok t)

/-! Helper lemmas about first-occurrence deduplication. -/

lemma dedupFirstByAux_sublist {α β : Type} [DecidableEq β] (f : α → β) :
    ∀ (l : List α) (seen : List β), (dedupFirstByAux f seen l).Sublist l := by
  intro l
  induction l with
  | nil => intro seen; simp [dedupFirstByAux]
  | cons r rs ih =>
    intro seen
    rw [dedupFirstByAux]
    by_cases hmem : f r ∈ seen
    · rw [if_pos hmem]
      exact (ih seen).cons r
    · rw [if_neg hmem]
      exact (ih (f r :: seen)).cons₂ r

lemma dedupFirstByAux_filter {α β : Type} [DecidableEq β] (f : α → β) (k : β) :
    ∀ (l : List α) (seen : List β),
      (dedupFirstByAux f seen l).filter (fun r => f r = k)
        = if k ∈ seen then [] else (l.filter (fun r => f r = k)).take 1 := by
  intro l
  induction l with
  | nil => intro seen; simp [dedupFirstByAux]
  | cons r rs ih =>
    intro seen
    rw [dedupFirstByAux]
    by_cases hmem : f r ∈ seen
    · rw [if_pos hmem, ih]
      by_cases hk : k ∈ seen
      · simp [hk]
      · have hne : ¬(f r = k) := fun h => hk (h ▸ hmem)
        simp [hk, List.filter_cons, hne]
    · rw [if_neg hmem]
      by_cases hrk : f r = k
      · have hk : k ∉ seen := fun h => hmem (hrk ▸ h)
        rw [List.filter_cons_of_pos (by simp [hrk]), ih]
        simp [hk, hrk, List.filter_cons, List.mem_cons]
      · rw [List.filter_cons_of_neg (by simp [hrk]), ih]
        have hkr : ¬(k = f r) := fun h => hrk h.symm
        by_cases hk : k ∈ seen
        · simp [hk, List.mem_cons, hkr]
        · simp [hk, List.mem_cons, hkr, List.filter_cons, hrk]

lemma dedupFirstByAux_nodup {α β : Type} [DecidableEq β] (f : α → β) :
    ∀ (l : List α) (seen : List β),
      ((dedupFirstByAux f seen l).map f).Nodup
        ∧ ∀ b ∈ (dedupFirstByAux f seen l).map f, b ∉ seen := by
  intro l
  induction l with
  | nil => intro seen; simp [dedupFirstByAux]
  | cons r rs ih =>
    intro seen
    rw [dedupFirstByAux]
    by_cases hmem : f r ∈ seen
    · rw [if_pos hmem]; exact ih seen
    · rw [if_neg hmem]
      obtain ⟨ihn, ihs⟩ := ih (f r :: seen)
      refine ⟨?_, ?_⟩
      · rw [List.map_cons, List.nodup_cons]
        refine ⟨fun hin => ?_, ihn⟩
        exact (ihs _ hin) (List.mem_cons_self _ _)
      · intro b hb
        rcases List.mem_cons.mp hb with hb | hb
        · exact hb ▸ hmem
        · intro hbs
          exact (ihs _ hb) (List.mem_cons_of_mem _ hbs)

/-! Helper lemmas: exact ceiling of an integer quotient. -/

lemma fdiv_eq_floor (a : Int) {n : Int} (hn : 0 < n) :
    a.fdiv n = ⌊(a : ℚ) / (n : ℚ)⌋ := by
  symm
  rw [Int.floor_eq_iff]
  have hid : n * a.fdiv n + a.fmod n = a := Int.fdiv_add_fmod a n
  have h0 : (0 : Int) ≤ a.fmod n := Int.fmod_nonneg' a hn
  have h1 : a.fmod n < n := Int.fmod_lt_of_pos a hn
  have hnq : (0 : ℚ) < (n : ℚ) := by exact_mod_cast hn
  have hq : (a : ℚ) = (n : ℚ) * ((a.fdiv n : Int) : ℚ) + ((a.fmod n : Int) : ℚ) := by
    exact_mod_cast hid.symm
  have key : (a : ℚ) / (n : ℚ) = ((a.fdiv n : Int) : ℚ) + ((a.fmod n : Int) : ℚ) / (n : ℚ) := by
    rw [hq]; field_simp; ring
  constructor
  · rw [key]
    have : (0 : ℚ) ≤ ((a.fmod n : Int) : ℚ) / (n : ℚ) :=
      div_nonneg (by exact_mod_cast h0) (le_of_lt hnq)
    linarith
  · rw [key]
    have : ((a.fmod n : Int) : ℚ) / (n : ℚ) < 1 :=
      (div_lt_one hnq).mpr (by exact_mod_cast h1)
    linarith

lemma ceilOfDiv_eq_ceil (d : Int) {n : Int} (hn : 0 < n) :
    ceilOfDiv d n = ⌈(d : ℚ) / (n : ℚ)⌉ := by
  unfold ceilOfDiv
  rw [fdiv_eq_floor (-d) hn]
  have hneg : ((-d : Int) : ℚ) / (n : ℚ) = -((d : ℚ) / (n : ℚ)) := by
    push_cast; ring
  rw [hneg, Int.floor_neg, neg_neg]

/-! Helper lemmas: structure of the colon-split. -/

lemma splitCols_ne_nil : ∀ cs : List Char, splitCols cs ≠ [] := by
  intro cs
  cases cs with
  | nil => simp [splitCols]
  | cons c cs' =>
    rw [splitCols]
    by_cases h : c = ':'
    · simp [h]
    · rw [if_neg h]
      cases splitCols cs' with
      | nil => simp
      | cons f rest => simp

lemma joinColon_splitCols : ∀ cs : List Char, joinColon (splitCols cs) = cs := by
  intro cs
  induction cs with
  | nil => rfl
  | cons c cs' ih =>
    rw [splitCols]
    by_cases h : c = ':'
    · rw [if_pos h]
      cases hs : splitCols cs' with
      | nil => exact absurd hs (splitCols_ne_nil cs')
      | cons q rest =>
        rw [hs] at ih
        rw [joinColon, ih, h, List.nil_append]
    · rw [if_neg h]
      cases hs : splitCols cs' with
      | nil => exact absurd hs (splitCols_ne_nil cs')
      | cons f rest =>
        rw [hs] at ih
        cases rest with
        | nil =>
          simp only [joinColon] at ih ⊢
          rw [ih]
        | cons q rest' =>
          simp only [joinColon] at ih ⊢
          rw [List.cons_append, ih]

lemma splitCols_no_colon : ∀ (cs : List Char), ∀ p ∈ splitCols cs, ':' ∉ p := by
  intro cs
  induction cs with
  | nil => intro p hp; simp [splitCols] at hp; simp [hp]
  | cons c cs' ih =>
    intro p hp
    rw [splitCols] at hp
    by_cases h : c = ':'
    · rw [if_pos h] at hp
      rcases List.mem_cons.mp hp with hp | hp
      · simp [hp]
      · exact ih p hp
    · rw [if_neg h] at hp
      cases hs : splitCols cs' with
      | nil => exact absurd hs (splitCols_ne_nil cs')
      | cons f rest =>
        rw [hs] at hp
        rcases List.mem_cons.mp hp with hp | hp
        · subst hp
          intro hmem
          rcases List.mem_cons.mp hmem with hc | hc
          · exact h hc.symm
          · exact ih f (hs ▸ List.mem_cons_self f rest) hc
        · exact ih p (hs ▸ List.mem_cons_of_mem f hp)

/-! Helper lemmas: injectivity of the underscore join on separator-free
parts. -/

lemma append_sep_inj : ∀ (a a' s s' : List Char), '_' ∉ a → '_' ∉ a' →
    a ++ '_' :: s = a' ++ '_' :: s' → a = a' ∧ s = s' := by
  intro a
  induction a with
  | nil =>
    intro a' s s' _ ha' h
    cases a' with
    | nil =>
      simp only [List.nil_append] at h
      exact ⟨rfl, (List.cons.injEq _ _ _ _ ▸ h).2⟩
    | cons c' t' =>
      simp only [List.nil_append, List.cons_append] at h
      have hc : c' = '_' := (List.cons.injEq _ _ _ _ ▸ h).1.symm
      exact absurd (hc ▸ List.mem_cons_self c' t') ha'
  | cons c t ih =>
    intro a' s s' ha ha' h
    cases a' with
    | nil =>
      simp only [List.cons_append, List.nil_append] at h
      have hc : c = '_' := (List.cons.injEq _ _ _ _ ▸ h).1
      exact absurd (hc ▸ List.mem_cons_self c t) ha
    | cons c' t' =>
      simp only [List.cons_append] at h
      have hcc : c = c' ∧ t ++ '_' :: s = t' ++ '_' :: s' := by
        constructor
        · exact (List.cons.injEq _ _ _ _ ▸ h).1
        · exact (List.cons.injEq _ _ _ _ ▸ h).2
      have hta : '_' ∉ t := fun hm => ha (List.mem_cons_of_mem c hm)
      have hta' : '_' ∉ t' := fun hm => ha' (List.mem_cons_of_mem c' hm)
      obtain ⟨h1, h2⟩ := ih t' s s' hta hta' hcc.2
      exact ⟨by rw [hcc.1, h1], h2⟩

lemma underscore_data : ("_" : String).data = ['_'] := rfl

lemma joinUnderscore_inj : ∀ (xs ys : List String), xs.length = ys.length →
    (∀ x ∈ xs, '_' ∉ x.data) → (∀ y ∈ ys, '_' ∉ y.data) →
    joinUnderscore xs = joinUnderscore ys → xs = ys := by
  intro xs
  induction xs with
  | nil =>
    intro ys hl _ _ _
    cases ys with
    | nil => rfl
    | cons y t => simp at hl
  | cons x xs' ih =>
    intro ys hl hx hy hj
    cases ys with
    | nil => simp at hl
    | cons y ys' =>
      cases xs' with
      | nil =>
        cases ys' with
        | nil =>
          simp only [joinUnderscore] at hj
          rw [hj]
        | cons y2 t' => simp at hl
      | cons x2 t =>
        cases ys' with
        | nil => simp at hl
        | cons y2 t' =>
          simp only [joinUnderscore] at hj
          have hd := congrArg String.data hj
          simp only [String.data_append, underscore_data, List.append_assoc,
            List.cons_append, List.nil_append] at hd
          have hxd : '_' ∉ x.data := hx x (List.mem_cons_self x _)
          have hyd : '_' ∉ y.data := hy y (List.mem_cons_self y _)
          obtain ⟨h1, h2⟩ := append_sep_inj x.data y.data _ _ hxd hyd hd
          have hxy : x = y := String.ext h1
          have hrest : joinUnderscore (x2 :: t) = joinUnderscore (y2 :: t') :=
            String.ext h2
          have htail : x2 :: t = y2 :: t' := by
            refine ih (y2 :: t') (by simpa using hl) ?_ ?_ hrest
            · intro z hz; exact hx z (List.mem_cons_of_mem x hz)
            · intro z hz; exact hy z (List.mem_cons_of_mem y hz)
          rw [hxy, htail]

/-! Helper lemmas: column index lookup and positional access. -/

lemma colIndex_lt_length {c : String} :
    ∀ {cols : List String} {j : Nat}, colIndex c cols = some j → j < cols.length := by
  intro cols
  induction cols with
  | nil => intro j h; simp [colIndex] at h
  | cons c' rest ih =>
    intro j h
    rw [colIndex] at h
    by_cases hc : c' = c
    · rw [if_pos hc] at h
      cases h
      simp
    · rw [if_neg hc] at h
      rcases Option.map_eq_some'.mp h with ⟨j', hj', rfl⟩
      have := ih hj'
      simp
      omega

lemma colIndex_getD {c : String} :
    ∀ {cols : List String} {j : Nat}, colIndex c cols = some j → cols.getD j "" = c := by
  intro cols
  induction cols with
  | nil => intro j h; simp [colIndex] at h
  | cons c' rest ih =>
    intro j h
    rw [colIndex] at h
    by_cases hc : c' = c
    · rw [if_pos hc] at h
      cases h
      simpa using hc
    · rw [if_neg hc] at h
      rcases Option.map_eq_some'.mp h with ⟨j', hj', rfl⟩
      simpa using ih hj'

lemma colIndex_append {c : String} :
    ∀ {cols : List String} {j : Nat} (l : List String),
      colIndex c cols = some j → colIndex c (cols ++ l) = some j := by
  intro cols
  induction cols with
  | nil => intro j l h; simp [colIndex] at h
  | cons c' rest ih =>
    intro j l h
    rw [colIndex] at h
    rw [List.cons_append, colIndex]
    by_cases hc : c' = c
    · rw [if_pos hc] at h ⊢
      exact h
    · rw [if_neg hc] at h ⊢
      rcases Option.map_eq_some'.mp h with ⟨j', hj', rfl⟩
      rw [ih l hj']
      rfl

lemma colIndex_of_mem {c : String} :
    ∀ {cols : List String}, c ∈ cols → ∃ j, colIndex c cols = some j := by
  intro cols
  induction cols with
  | nil => intro h; simp at h
  | cons c' rest ih =>
    intro h
    rw [colIndex]
    by_cases hc : c' = c
    · exact ⟨0, by rw [if_pos hc]⟩
    · rcases List.mem_cons.mp h with h | h
      · exact absurd h.symm hc
      · obtain ⟨j, hj⟩ := ih h
        exact ⟨j + 1, by rw [if_neg hc, hj]; rfl⟩

lemma list_getD_set_ne {α : Type} (v d : α) :
    ∀ (r : List α) (i j : Nat), j ≠ i → (r.set i v).getD j d = r.getD j d := by
  intro r
  induction r with
  | nil => intro i j _; simp
  | cons a t ih =>
    intro i j hne
    cases i with
    | zero =>
      cases j with
      | zero => exact absurd rfl hne
      | succ j' => simp [List.set]
    | succ i' =>
      cases j with
      | zero => simp [List.set]
      | succ j' =>
        simp only [List.set, List.getD, List.get?]
        exact ih i' j' (fun h => hne (by rw [h]))

lemma list_getD_append_lt {α : Type} (d : α) :
    ∀ (r s : List α) (j : Nat), j < r.length → (r ++ s).getD j d = r.getD j d := by
  intro r
  induction r with
  | nil => intro s j h; simp at h
  | cons a t ih =>
    intro s j h
    cases j with
    | zero => simp
    | succ j' =>
      simp only [List.cons_append, List.getD_cons_succ]
      exact ih s j' (by simpa using h)

lemma list_getD_map {α β : Type} (f : α → β) (d : α) (d' : β) :
    ∀ (l : List α) (i : Nat), i < l.length → (l.map f).getD i d' = f (l.getD i d) := by
  intro l
  induction l with
  | nil => intro i h; simp at h
  | cons a t ih =>
    intro i h
    cases i with
    | zero => simp
    | succ i' =>
      simp only [List.map_cons, List.getD_cons_succ]
      exact ih i' (by simpa using h)

lemma list_getD_mem {α : Type} (d : α) :
    ∀ (l : List α) (i : Nat), i < l.length → l.getD i d ∈ l := by
  intro l
  induction l with
  | nil => intro i h; simp at h
  | cons a t ih =>
    intro i h
    cases i with
    | zero => simp
    | succ i' =>
      simp only [List.getD_cons_succ]
      exact List.mem_cons_of_mem a (ih i' (by simpa using h))

/-! Helper lemmas: effect of the in-place `UniqueKey` assignment on the
input table. -/

lemma addUniqueKey_rows_length (t : Table) (keys : List String) :
    (addUniqueKey t keys).rows.length = t.rows.length := by
  unfold addUniqueKey
  cases colIndex "UniqueKey" t.cols with
  | some i => simp
  | none => simp

lemma addUniqueKey_cols (t : Table) (keys : List String) :
    (addUniqueKey t keys).cols = t.cols
      ∨ (addUniqueKey t keys).cols = t.cols ++ ["UniqueKey"] := by
  unfold addUniqueKey
  cases colIndex "UniqueKey" t.cols with
  | some i => left; rfl
  | none => right; rfl

lemma addUniqueKey_preserves (t : Table) (keys : List String) (hwf : t.WF)
    (c : String) (hc : c ∈ t.cols) (hne : c ≠ "UniqueKey") (i : Nat)
    (hi : i < t.rows.length) :
    getCell (addUniqueKey t keys).cols ((addUniqueKey t keys).rows.getD i []) c
      = getCell t.cols (t.rows.getD i []) c := by
  unfold addUniqueKey
  cases h : colIndex "UniqueKey" t.cols with
  | some iUK =>
    simp only
    rw [list_getD_map _ [] [] _ _ hi]
    · unfold getCell
      cases hc' : colIndex c t.cols with
      | none => rfl
      | some j =>
        dsimp only
        have hj : j ≠ iUK := by
          intro heq
          apply hne
          have h1 := colIndex_getD hc'
          have h2 := colIndex_getD h
          rw [← h1, heq, h2]
        rw [list_getD_set_ne _ _ _ _ _ hj]
  | none =>
    simp only
    rw [list_getD_map _ [] [] _ _ hi]
    unfold getCell
    obtain ⟨j, hj⟩ := colIndex_of_mem hc
    rw [colIndex_append _ hj, hj]
    dsimp only
    have hjlen : j < t.cols.length := colIndex_lt_length hj
    have hrmem : t.rows.getD i [] ∈ t.rows := list_getD_mem [] t.rows i hi
    have hrlen : (t.rows.getD i []).length = t.cols.length := hwf _ hrmem
    rw [list_getD_append_lt _ _ _ _ (by omega)]

/-! Helper lemma: merged column labels without overlap. -/

lemma map_suffix_id (sfx : String) :
    ∀ (l other : List String), (∀ c ∈ l, c ∉ other) →
      l.map (fun c => if c ∈ other then c ++ sfx else c) = l := by
  intro l other h
  induction l with
  | nil => rfl
  | cons a t ih =>
    rw [List.map_cons, if_neg (h a (List.mem_cons_self a t)),
      ih (fun c hc => h c (List.mem_cons_of_mem a hc))]

lemma mergedCols_of_disjoint (oc nc : List String) (h : ∀ c ∈ oc, c ∉ nc) :
    mergedCols oc nc = "UniqueKey" :: (oc ++ nc) := by
  unfold mergedCols
  rw [map_suffix_id _ oc nc h, map_suffix_id _ nc oc (fun c hc hco => h c hco hc),
    List.cons_append]

/-! Claim theorems. -/

/-- C1: for every pair of input tables and caller column lists, the output
table of the basic merge contains no two rows with equal `UniqueKey`: after
deduplication the key values of the output rows are pairwise distinct. -/
theorem C1_key_uniqueness_after_merge (old_file new_file : Table)
    (old_keys new_keys old_cols new_cols : List String) :
    (((extract_and_merge_columns_basic old_file new_file old_keys new_keys
          old_cols new_cols).2.2.rows).map
        (fun r => ukeyCell (mergedCols old_cols new_cols) r)).Nodup := by
  exact (dedupFirstByAux_nodup (fun r => ukeyCell (mergedCols old_cols new_cols) r)
    (joinedRows (project (addUniqueKey old_file old_keys) ("UniqueKey" :: old_cols))
      (project (addUniqueKey new_file new_keys) ("UniqueKey" :: new_cols))) []).1

/-- C5: the basic merge deduplicates the inner-join result by `UniqueKey`
keeping, among all joined rows sharing a key, exactly the first encountered
one: the output rows with key `k` are the first element of the joined rows
with key `k` (and none when the key does not occur), and the output is a
sublist of the joined rows, in join order — the join itself emitting one
combined row per matching (left row, right row) pair in left encounter
order with right ties in right order, as `joinedRows` states. -/
theorem C5_dedup_keeps_first_row (old_file new_file : Table)
    (old_keys new_keys old_cols new_cols : List String) (k : Cell) :
    ((extract_and_merge_columns_basic old_file new_file old_keys new_keys
          old_cols new_cols).2.2.rows.filter
        (fun r => ukeyCell (mergedCols old_cols new_cols) r = k))
      = ((joinedRows (project (addUniqueKey old_file old_keys) ("UniqueKey" :: old_cols))
            (project (addUniqueKey new_file new_keys) ("UniqueKey" :: new_cols))).filter
          (fun r => ukeyCell (mergedCols old_cols new_cols) r = k)).take 1
    ∧ (extract_and_merge_columns_basic old_file new_file old_keys new_keys
          old_cols new_cols).2.2.rows.Sublist
        (joinedRows (project (addUniqueKey old_file old_keys) ("UniqueKey" :: old_cols))
          (project (addUniqueKey new_file new_keys) ("UniqueKey" :: new_cols))) := by
  constructor
  · have h := dedupFirstByAux_filter (fun r => ukeyCell (mergedCols old_cols new_cols) r) k
      (joinedRows (project (addUniqueKey old_file old_keys) ("UniqueKey" :: old_cols))
        (project (addUniqueKey new_file new_keys) ("UniqueKey" :: new_cols))) []
    simpa using h
  · exact dedupFirstByAux_sublist (fun r => ukeyCell (mergedCols old_cols new_cols) r)
      (joinedRows (project (addUniqueKey old_file old_keys) ("UniqueKey" :: old_cols))
        (project (addUniqueKey new_file new_keys) ("UniqueKey" :: new_cols))) []

/-- C2: whenever both arguments parse as 24-hour times, the delay-days
computation returns exactly the ceiling of the seconds difference divided
by 86400; in particular one minute late gives 1 and one minute early
gives 0. -/
theorem C2_delay_days_is_ceiling :
    (∀ (s1 s2 : String) (a b : Nat), parseTime s1 = some a → parseTime s2 = some b →
      calculate_delay_days (Cell.str s1) (Cell.str s2)
        = some ⌈(((a : Nat) : ℚ) - ((b : Nat) : ℚ)) / 86400⌉)
    ∧ calculate_delay_days (Cell.str "10:00:00") (Cell.str "09:59:00") = some 1
    ∧ calculate_delay_days (Cell.str "09:59:00") (Cell.str "10:00:00") = some 0 := by
  refine ⟨?_, rfl, rfl⟩
  intro s1 s2 a b h1 h2
  simp only [calculate_delay_days, parseTimeCell, h1, h2]
  have hc := ceilOfDiv_eq_ceil ((a : Int) - (b : Int)) (by norm_num : (0 : Int) < 86400)
  rw [hc]
  congr 1
  congr 1
  push_cast
  ring

/-- C2 witness: the general ceiling law instantiated at the two concrete
example times of the claim. -/
theorem C2_delay_days_is_ceiling_witness :
    calculate_delay_days (Cell.str "10:00:00") (Cell.str "09:59:00")
      = some ⌈(((36000 : Nat) : ℚ) - ((35940 : Nat) : ℚ)) / 86400⌉ :=
  C2_delay_days_is_ceiling.1 "10:00:00" "09:59:00" 36000 35940 rfl rfl

/-- C10: a missing value in a key column neither fails key construction nor
drops the row: `NaN` stringifies to the literal `nan`, the key assignment
keeps every row, and two rows missing values in corresponding key columns
produce equal `nan` keys and match each other in the join. -/
theorem C10_null_key_values_match :
    cellToString Cell.null = "nan"
    ∧ (∀ (t : Table) (keys : List String),
        (addUniqueKey t keys).rows.length = t.rows.length)
    ∧ (extract_and_merge_columns_basic ⟨["K", "X"], [[Cell.null, Cell.str "foo"]]⟩
          ⟨["K", "Y"], [[Cell.null, Cell.str "bar"]]⟩ ["K"] ["K"] ["X"] ["Y"]).2.2
        = ⟨["UniqueKey", "X", "Y"],
            [[Cell.str "nan", Cell.str "foo", Cell.str "bar"]]⟩ := by
  exact ⟨rfl, fun t keys => addUniqueKey_rows_length t keys, by decide⟩

/-- C3: the delay status is `Advance` exactly for delay days in `[-14, -1]`,
`Delay` exactly for `[1, 14]`, and null in every other case — including 0,
magnitudes beyond 14, and null input; the spec's boundary table is checked
concretely. -/
theorem C3_delay_status_thresholds :
    (∀ d : Option Int,
      (calculate_delay_status d = some "Advance"
          ↔ ∃ v, d = some v ∧ -14 ≤ v ∧ v ≤ -1)
      ∧ (calculate_delay_status d = some "Delay"
          ↔ ∃ v, d = some v ∧ 1 ≤ v ∧ v ≤ 14)
      ∧ (calculate_delay_status d = none
          ↔ d = none ∨ ∃ v, d = some v ∧ ¬(-14 ≤ v ∧ v ≤ -1) ∧ ¬(1 ≤ v ∧ v ≤ 14)))
    ∧ calculate_delay_status (some (-1)) = some "Advance"
    ∧ calculate_delay_status (some (-14)) = some "Advance"
    ∧ calculate_delay_status (some (-15)) = none
    ∧ calculate_delay_status (some 1) = some "Delay"
    ∧ calculate_delay_status (some 14) = some "Delay"
    ∧ calculate_delay_status (some 15) = none
    ∧ calculate_delay_status (some 0) = none
    ∧ calculate_delay_status none = none := by
  refine ⟨?_, by decide, by decide, by decide, by decide, by decide, by decide,
    by decide, rfl⟩
  intro d
  cases d with
  | none => simp [calculate_delay_status]
  | some v =>
    simp only [calculate_delay_status]
    split_ifs with hA hD
    · refine ⟨⟨fun _ => ⟨v, rfl, hA⟩, fun _ => rfl⟩, ?_, ?_⟩
      · constructor
        · intro h
          exact absurd (Option.some.inj h) (by decide)
        · rintro ⟨w, hw, hr⟩
          obtain rfl : v = w := Option.some.inj hw
          omega
      · constructor
        · intro h
          exact h.elim
        · rintro (h | ⟨w, hw, hr1, hr2⟩)
          · exact h.elim
          · obtain rfl : v = w := Option.some.inj hw
            exact absurd hA hr1
    · refine ⟨?_, ⟨fun _ => ⟨v, rfl, hD⟩, fun _ => rfl⟩, ?_⟩
      · constructor
        · intro h
          exact absurd (Option.some.inj h) (by decide)
        · rintro ⟨w, hw, hr⟩
          obtain rfl : v = w := Option.some.inj hw
          omega
      · constructor
        · intro h
          exact h.elim
        · rintro (h | ⟨w, hw, hr1, hr2⟩)
          · exact h.elim
          · obtain rfl : v = w := Option.some.inj hw
            exact absurd hD hr2
    · refine ⟨?_, ?_, ?_⟩
      · constructor
        · intro h
          exact h.elim
        · rintro ⟨w, hw, hr⟩
          obtain rfl : v = w := Option.some.inj hw
          exact absurd hr hA
      · constructor
        · intro h
          exact h.elim
        · rintro ⟨w, hw, hr⟩
          obtain rfl : v = w := Option.some.inj hw
          exact absurd hr hD
      · exact ⟨fun _ => Or.inr ⟨v, rfl, hA, hD⟩, fun _ => rfl⟩

/-- Facts recovered from a successful strptime field parse. -/
lemma parseField_some {f : List Char} {mx hv : Nat} (h : parseField f mx = some hv) :
    f ≠ [] ∧ f.length ≤ 2 ∧ (∀ c ∈ f, c.isDigit = true) ∧ digitsVal f ≤ mx
      ∧ hv = digitsVal f := by
  unfold parseField at h
  split_ifs at h with hc hm
  exact ⟨hc.1, hc.2.1, List.all_eq_true.mp hc.2.2, hm, (Option.some.inj h).symm⟩

/-- C4 witness helper and counterexample: the parser the source uses
(strptime with format `%H:%M:%S`) accepts fields without zero padding, so
the string `9:00:00` — not strictly in `HH:MM:SS` form — parses successfully
instead of yielding null. -/
theorem C4_unpadded_time_counterexample :
    specStrictHHMMSS "9:00:00" = false ∧ parseTime "9:00:00" = some 32400 := by
  exact ⟨rfl, rfl⟩

/-- C4 (amended): the parser never raises (it is a total function into an
option); every successful parse decomposes the input as three colon-separated
fields of one or two digits within the 24-hour ranges (zero padding
optional), so every string not of that shape yields null; and the delay-days
computation yields null whenever either argument parses to null, with no
exception — e.g. on `not-a-time`. -/
theorem C4_malformed_time_tolerance :
    (∀ (s : String) (v : Nat), parseTime s = some v →
      ∃ hf mf sf : List Char,
        s.data = hf ++ ':' :: (mf ++ ':' :: sf)
        ∧ hf ≠ [] ∧ hf.length ≤ 2 ∧ (∀ c ∈ hf, c.isDigit = true) ∧ digitsVal hf ≤ 23
        ∧ mf ≠ [] ∧ mf.length ≤ 2 ∧ (∀ c ∈ mf, c.isDigit = true) ∧ digitsVal mf ≤ 59
        ∧ sf ≠ [] ∧ sf.length ≤ 2 ∧ (∀ c ∈ sf, c.isDigit = true) ∧ digitsVal sf ≤ 59
        ∧ v = digitsVal hf * 3600 + digitsVal mf * 60 + digitsVal sf)
    ∧ (∀ c1 c2 : Cell, parseTimeCell c1 = none ∨ parseTimeCell c2 = none →
        calculate_delay_days c1 c2 = none)
    ∧ calculate_delay_days (Cell.str "not-a-time") (Cell.str "09:00:00") = none := by
  refine ⟨?_, ?_, rfl⟩
  · intro s v h
    unfold parseTime at h
    rcases hL : splitCols s.data with _ | ⟨hf, _ | ⟨mf, _ | ⟨sf, _ | ⟨x, rest⟩⟩⟩⟩
    · rw [hL] at h; exact Option.noConfusion h
    · rw [hL] at h; exact Option.noConfusion h
    · rw [hL] at h; exact Option.noConfusion h
    case cons.cons.cons.nil =>
      rw [hL] at h
      dsimp only at h
      rcases hpf1 : parseField hf 23 with _ | hv
      · rw [hpf1] at h; exact Option.noConfusion h
      rcases hpf2 : parseField mf 59 with _ | mv
      · rw [hpf1, hpf2] at h; exact Option.noConfusion h
      rcases hpf3 : parseField sf 59 with _ | sv
      · rw [hpf1, hpf2, hpf3] at h; exact Option.noConfusion h
      rw [hpf1, hpf2, hpf3] at h
      dsimp only at h
      have hv' := Option.some.inj h
      obtain ⟨hne1, hlen1, hdig1, hmx1, hval1⟩ := parseField_some hpf1
      obtain ⟨hne2, hlen2, hdig2, hmx2, hval2⟩ := parseField_some hpf2
      obtain ⟨hne3, hlen3, hdig3, hmx3, hval3⟩ := parseField_some hpf3
      refine ⟨hf, mf, sf, ?_, hne1, hlen1, hdig1, hmx1, hne2, hlen2, hdig2, hmx2,
        hne3, hlen3, hdig3, hmx3, ?_⟩
      · have hj := joinColon_splitCols s.data
        rw [hL] at hj
        simp only [joinColon] at hj
        exact hj.symm
      · rw [← hv', hval1, hval2, hval3]
    case cons.cons.cons.cons =>
      rw [hL] at h
      exact Option.noConfusion h
  · intro c1 c2 hor
    unfold calculate_delay_days
    rcases hor with hor | hor
    · rw [hor]
    · rw [hor]
      rcases parseTimeCell c1 with _ | w
      · rfl
      · rfl

/-- C4 witness: the inversion of a successful parse instantiated at the
concrete time `10:00:00`. -/
theorem C4_malformed_time_tolerance_witness :
    ∃ hf mf sf : List Char,
      ("10:00:00" : String).data = hf ++ ':' :: (mf ++ ':' :: sf)
      ∧ hf ≠ [] ∧ hf.length ≤ 2 ∧ (∀ c ∈ hf, c.isDigit = true) ∧ digitsVal hf ≤ 23
      ∧ mf ≠ [] ∧ mf.length ≤ 2 ∧ (∀ c ∈ mf, c.isDigit = true) ∧ digitsVal mf ≤ 59
      ∧ sf ≠ [] ∧ sf.length ≤ 2 ∧ (∀ c ∈ sf, c.isDigit = true) ∧ digitsVal sf ≤ 59
      ∧ 36000 = digitsVal hf * 3600 + digitsVal mf * 60 + digitsVal sf :=
  C4_malformed_time_tolerance.1 "10:00:00" 36000 rfl

/-- C6 counterexample: when the same output column is requested from both
sides the merge still succeeds, but pandas renames the overlapping label
with the `_x`/`_y` suffixes, so the output columns are not the
caller-specified names. -/
theorem C6_overlap_suffix_counterexample :
    (extract_and_merge_columns_basic ⟨["K", "A"], [[Cell.str "k", Cell.str "a"]]⟩
        ⟨["K", "A"], [[Cell.str "k", Cell.str "b"]]⟩ ["K"] ["K"] ["A"] ["A"]).2.2.cols
      = ["UniqueKey", "A_x", "A_y"]
    ∧ ["UniqueKey", "A_x", "A_y"] ≠ ["UniqueKey", "A", "A"] := by
  exact ⟨rfl, by decide⟩

/-- C6 (amended): when the caller-specified left and right output column
lists do not overlap, the output columns of the basic merge are exactly
`UniqueKey`, then the left output columns in caller order, then the right
output columns in caller order — no extras, no omissions; an overlapping
label is emitted with the `_x`/`_y` suffixes instead. -/
theorem C6_column_completeness (old_file new_file : Table)
    (old_keys new_keys old_cols new_cols : List String)
    (hdisj : ∀ c ∈ old_cols, c ∉ new_cols) :
    (extract_and_merge_columns_basic old_file new_file old_keys new_keys
        old_cols new_cols).2.2.cols
      = "UniqueKey" :: (old_cols ++ new_cols) := by
  exact mergedCols_of_disjoint old_cols new_cols hdisj

/-- C6 witness: the amended column law at concrete disjoint column lists. -/
theorem C6_column_completeness_witness :
    (extract_and_merge_columns_basic ⟨["K", "X"], [[Cell.str "k", Cell.str "x"]]⟩
        ⟨["K", "Y"], [[Cell.str "k", Cell.str "y"]]⟩ ["K"] ["K"] ["X"] ["Y"]).2.2.cols
      = "UniqueKey" :: (["X"] ++ ["Y"]) :=
  C6_column_completeness ⟨["K", "X"], [[Cell.str "k", Cell.str "x"]]⟩
    ⟨["K", "Y"], [[Cell.str "k", Cell.str "y"]]⟩ ["K"] ["K"] ["X"] ["Y"] (by decide)

/-- C7 counterexample: two rows whose key-column values stringify
differently componentwise can still produce equal composite keys when a
value contains the underscore separator. -/
theorem C7_separator_collision_counterexample :
    rowUniqueKey ["K1", "K2"] ["K1", "K2"] [Cell.str "a_b", Cell.str "c"]
      = rowUniqueKey ["K1", "K2"] ["K1", "K2"] [Cell.str "a", Cell.str "b_c"]
    ∧ (["K1", "K2"].map
        (fun k => cellToString (getCell ["K1", "K2"] [Cell.str "a_b", Cell.str "c"] k)))
      ≠ (["K1", "K2"].map
        (fun k => cellToString (getCell ["K1", "K2"] [Cell.str "a", Cell.str "b_c"] k))) := by
  exact ⟨rfl, by decide⟩

/-- C7 (amended): composite keys built over the same key spec are equal iff
the key-column values stringify identically componentwise, provided no
stringified key value contains the underscore separator; without that
proviso only the right-to-left direction holds, and separator-bearing
values can collide. -/
theorem C7_composite_key_iff (cols keys : List String) (r1 r2 : List Cell)
    (h1 : ∀ k ∈ keys, '_' ∉ (cellToString (getCell cols r1 k)).data)
    (h2 : ∀ k ∈ keys, '_' ∉ (cellToString (getCell cols r2 k)).data) :
    rowUniqueKey cols keys r1 = rowUniqueKey cols keys r2
      ↔ keys.map (fun k => cellToString (getCell cols r1 k))
          = keys.map (fun k => cellToString (getCell cols r2 k)) := by
  constructor
  · intro h
    refine joinUnderscore_inj _ _ (by simp) ?_ ?_ h
    · intro x hx
      rcases List.mem_map.mp hx with ⟨k, hk, rfl⟩
      exact h1 k hk
    · intro x hx
      rcases List.mem_map.mp hx with ⟨k, hk, rfl⟩
      exact h2 k hk
  · intro h
    unfold rowUniqueKey
    rw [h]

/-- C7 witness: the amended equivalence at concrete separator-free rows. -/
theorem C7_composite_key_iff_witness :
    rowUniqueKey ["K"] ["K"] [Cell.str "a"] = rowUniqueKey ["K"] ["K"] [Cell.str "b"]
      ↔ ["K"].map (fun k => cellToString (getCell ["K"] [Cell.str "a"] k))
          = ["K"].map (fun k => cellToString (getCell ["K"] [Cell.str "b"] k)) :=
  C7_composite_key_iff ["K"] ["K"] [Cell.str "a"] [Cell.str "b"] (by decide) (by decide)

/-- C8 counterexample: with valid keys and output columns but `ETB / ATB`
and `Proforma Berth` absent, the with-delay merge call fails — yet its
event trace already contains the join, so the error for those two columns
is not raised before the join work. -/
theorem C8_late_delay_check_counterexample :
    mainMergeWithDelay ⟨["K", "X"], [[Cell.str "a", Cell.str "x"]]⟩
        ⟨["K", "Y"], [[Cell.str "a", Cell.str "y"]]⟩ ["K"] ["K"] ["X"] ["Y"]
      = ([MergeEvent.builtKeys, MergeEvent.projectedCols, MergeEvent.joined,
          MergeEvent.deduped], Except.error MergeError.missingDelayColumns)
    ∧ MergeEvent.joined ∈ [MergeEvent.builtKeys, MergeEvent.projectedCols,
        MergeEvent.joined, MergeEvent.deduped] := by
  exact ⟨rfl, by decide⟩

/-- C8 (amended): every merge call is all-or-nothing — the output is
written iff the call fully succeeds; a missing key or caller-listed output
column is reported eagerly, before any merge work; but the with-delay
mode's check of `ETB / ATB` and `Proforma Berth` happens only after the
join and deduplication, so that failure arrives with the join already
performed (still producing no output). -/
theorem C8_all_or_nothing (old_file new_file : Table)
    (old_keys new_keys old_cols new_cols : List String) :
    (MergeEvent.wroteOutput ∈ (mainMergeWithDelay old_file new_file old_keys new_keys
          old_cols new_cols).1
      ↔ ∃ t, (mainMergeWithDelay old_file new_file old_keys new_keys
          old_cols new_cols).2 = Except.ok t)
    ∧ (((mainMergeWithDelay old_file new_file old_keys new_keys old_cols new_cols).2
          = Except.error MergeError.missingInA
        ∨ (mainMergeWithDelay old_file new_file old_keys new_keys old_cols new_cols).2
          = Except.error MergeError.missingInB)
      → (mainMergeWithDelay old_file new_file old_keys new_keys old_cols new_cols).1 = [])
    ∧ ((mainMergeWithDelay old_file new_file old_keys new_keys old_cols new_cols).2
          = Except.error MergeError.missingDelayColumns
      → MergeEvent.joined ∈ (mainMergeWithDelay old_file new_file old_keys new_keys
          old_cols new_cols).1)
    ∧ (MergeEvent.wroteOutput ∈ (mainMergeBasic old_file new_file old_keys new_keys
          old_cols new_cols).1
      ↔ ∃ t, (mainMergeBasic old_file new_file old_keys new_keys old_cols new_cols).2
          = Except.ok t)
    ∧ (((mainMergeBasic old_file new_file old_keys new_keys old_cols new_cols).2
          = Except.error MergeError.missingInA
        ∨ (mainMergeBasic old_file new_file old_keys new_keys old_cols new_cols).2
          = Except.error MergeError.missingInB)
      → (mainMergeBasic old_file new_file old_keys new_keys old_cols new_cols).1 = []) := by
  unfold mainMergeWithDelay mainMergeBasic
  split_ifs with hA hB
  · simp
  · simp
  · rcases hdel : (extract_and_merge_columns_with_delay old_file new_file old_keys
        new_keys old_cols new_cols).2.2 with _ | t
    · simp [hdel]
    · simp [hdel]

/-- C8 witness: the all-or-nothing law instantiated at the concrete input
of the counterexample's shape but with the delay columns present, where the
call succeeds. -/
theorem C8_all_or_nothing_witness :
    MergeEvent.wroteOutput ∈ (mainMergeWithDelay
        ⟨["K", "ETB / ATB", "Proforma Berth"],
          [[Cell.str "a", Cell.str "10:00:00", Cell.str "09:00:00"]]⟩
        ⟨["K", "Y"], [[Cell.str "a", Cell.str "y"]]⟩
        ["K"] ["K"] ["ETB / ATB", "Proforma Berth"] ["Y"]).1
      ↔ ∃ t, (mainMergeWithDelay
        ⟨["K", "ETB / ATB", "Proforma Berth"],
          [[Cell.str "a", Cell.str "10:00:00", Cell.str "09:00:00"]]⟩
        ⟨["K", "Y"], [[Cell.str "a", Cell.str "y"]]⟩
        ["K"] ["K"] ["ETB / ATB", "Proforma Berth"] ["Y"]).2 = Except.ok t :=
  (C8_all_or_nothing ⟨["K", "ETB / ATB", "Proforma Berth"],
      [[Cell.str "a", Cell.str "10:00:00", Cell.str "09:00:00"]]⟩
    ⟨["K", "Y"], [[Cell.str "a", Cell.str "y"]]⟩
    ["K"] ["K"] ["ETB / ATB", "Proforma Berth"] ["Y"]).1

/-- C9 counterexample: the basic merge assigns a `UniqueKey` column into
its first input in place, so after the call the input table is not the
table that was passed in. -/
theorem C9_input_mutation_counterexample :
    (extract_and_merge_columns_basic ⟨["K", "X"], [[Cell.str "a", Cell.str "x"]]⟩
        ⟨["K", "Y"], [[Cell.str "a", Cell.str "y"]]⟩ ["K"] ["K"] ["X"] ["Y"]).1
      ≠ ⟨["K", "X"], [[Cell.str "a", Cell.str "x"]]⟩ := by
  decide

/-- C9 (amended): a merge call leaves both input tables unchanged except
for the `UniqueKey` column assignment: row counts are preserved, the column
list is either unchanged (`UniqueKey` overwritten in place) or extended by
exactly the appended `UniqueKey` column, and the value of every
pre-existing column other than `UniqueKey` is unchanged in every row. -/
theorem C9_inputs_readonly_up_to_key (old_file new_file : Table)
    (old_keys new_keys old_cols new_cols : List String)
    (hwfo : old_file.WF) (hwfn : new_file.WF) :
    ((extract_and_merge_columns_basic old_file new_file old_keys new_keys
        old_cols new_cols).1.rows.length = old_file.rows.length)
    ∧ ((extract_and_merge_columns_basic old_file new_file old_keys new_keys
        old_cols new_cols).2.1.rows.length = new_file.rows.length)
    ∧ ((extract_and_merge_columns_basic old_file new_file old_keys new_keys
          old_cols new_cols).1.cols = old_file.cols
        ∨ (extract_and_merge_columns_basic old_file new_file old_keys new_keys
          old_cols new_cols).1.cols = old_file.cols ++ ["UniqueKey"])
    ∧ ((extract_and_merge_columns_basic old_file new_file old_keys new_keys
          old_cols new_cols).2.1.cols = new_file.cols
        ∨ (extract_and_merge_columns_basic old_file new_file old_keys new_keys
          old_cols new_cols).2.1.cols = new_file.cols ++ ["UniqueKey"])
    ∧ (∀ c ∈ old_file.cols, c ≠ "UniqueKey" → ∀ i, i < old_file.rows.length →
        getCell (extract_and_merge_columns_basic old_file new_file old_keys new_keys
            old_cols new_cols).1.cols
          ((extract_and_merge_columns_basic old_file new_file old_keys new_keys
            old_cols new_cols).1.rows.getD i []) c
          = getCell old_file.cols (old_file.rows.getD i []) c)
    ∧ (∀ c ∈ new_file.cols, c ≠ "UniqueKey" → ∀ i, i < new_file.rows.length →
        getCell (extract_and_merge_columns_basic old_file new_file old_keys new_keys
            old_cols new_cols).2.1.cols
          ((extract_and_merge_columns_basic old_file new_file old_keys new_keys
            old_cols new_cols).2.1.rows.getD i []) c
          = getCell new_file.cols (new_file.rows.getD i []) c) := by
  refine ⟨addUniqueKey_rows_length old_file old_keys,
    addUniqueKey_rows_length new_file new_keys,
    addUniqueKey_cols old_file old_keys,
    addUniqueKey_cols new_file new_keys,
    fun c hc hne i hi => addUniqueKey_preserves old_file old_keys hwfo c hc hne i hi,
    fun c hc hne i hi => addUniqueKey_preserves new_file new_keys hwfn c hc hne i hi⟩

/-- C9 witness: the first clause of the preservation law at a concrete
well-formed input pair. -/
theorem C9_inputs_readonly_up_to_key_witness :
    (extract_and_merge_columns_basic ⟨["K", "X"], [[Cell.str "a", Cell.str "x"]]⟩
        ⟨["K", "Y"], [[Cell.str "a", Cell.str "y"]]⟩ ["K"] ["K"] ["X"] ["Y"]).1.rows.length
      = (⟨["K", "X"], [[Cell.str "a", Cell.str "x"]]⟩ : Table).rows.length :=
  (C9_inputs_readonly_up_to_key ⟨["K", "X"], [[Cell.str "a", Cell.str "x"]]⟩
    ⟨["K", "Y"], [[Cell.str "a", Cell.str "y"]]⟩ ["K"] ["K"] ["X"] ["Y"]
    (by intro r hr; simp at hr; simp [hr]) (by intro r hr; simp at hr; simp [hr])).1
